import Mathlib

/-!
Verification of the aggregation, ranking and pagination logic of the
GitHub-contest dashboard (src/src/pages/Dashboard.jsx).

The JavaScript component is embedded shallowly:

* A webhook record becomes the structure `Event`.  The optional payload
  fields that the dashboard reads (`githubEvent`, `repository?.name`,
  `sender?.login`, `pusher?.name`, `pull_request?.user?.login`) become
  `Option String` fields; an absent field is `none`.
* Timestamps (`receivedAt`, `new Date()`) are integers (milliseconds since
  the epoch); truncation to a local calendar day (`setHours(0,0,0,0)` and
  `toLocaleDateString`) becomes floor division by the number of
  milliseconds per day, so a calendar date is an `Int` day index.
* A JavaScript object used as a counter (`obj[k] = (obj[k] || 0) + 1`)
  becomes an association list `List (key × Nat)` in insertion order:
  assignment updates an existing key in place and appends a fresh key at
  the end, exactly like string-keyed object insertion order.
* `Array.prototype.sort` with comparator `(a, b) => b[1] - a[1]` is a
  stable sort; it is modelled by a stable insertion sort with the same
  ordering, which produces the identical output list.
* `[...new Set(xs)]` becomes a first-seen deduplication.
* JavaScript truthiness in `x || d` on optional strings (undefined and
  the empty string are falsy) becomes `jsOr`.
-/

/-- One webhook record, with the fields the dashboard reads.  Optional
payload fields are `Option String`. -/
structure Event where
  id : String
  receivedAt : Int
  githubEvent : Option String
  repository : Option String
  sender : Option String
  pusher : Option String
  prUser : Option String
deriving DecidableEq

/-- JavaScript `x || d` for an optional string `x`: both `undefined` and
the empty string are falsy and fall through to the default. -/
def jsOr (a : Option String) (d : String) : String :=
  match a with
  | none => d
  | some s => if s = "" then d else s

/-- JavaScript `s.slice(n)` for a nonnegative index: drop the first `n`
characters. -/
def jsDrop (s : String) (n : Nat) : String := String.mk (s.data.drop n)

/-- `item.githubEvent || 'Unknown'` (Dashboard.jsx line 103). -/
def eventTypeOf (e : Event) : String := jsOr e.githubEvent "Unknown"

/-- `item.repository?.name || 'Unknown'` (Dashboard.jsx lines 110, 117). -/
def repoNameOf (e : Event) : String := jsOr e.repository "Unknown"

/-- `repoName.slice(5)` applied after the `'Unknown'` default
(Dashboard.jsx line 118): the team label used by `teamActivity`. -/
def teamOf (e : Event) : String := jsDrop (repoNameOf e) 5

/-- `item.sender?.login || item.pusher?.name || item.pull_request?.user?.login
|| 'Unknown'` (Dashboard.jsx line 151). -/
def usernameOf (e : Event) : String :=
  jsOr e.sender (jsOr e.pusher (jsOr e.prUser "Unknown"))

/-- `item.repository?.name.slice(5) || 'Unknown'` (Dashboard.jsx lines 190
and 547): the team label used by the today summary and the activity table.
An absent repository short-circuits to `undefined`, hence `'Unknown'`; a
name of at most 5 characters slices to the empty string, which is falsy
and also yields `'Unknown'`. -/
def teamOrUnknown (e : Event) : String :=
  jsOr (e.repository.map (fun s => jsDrop s 5)) "Unknown"

/-- Milliseconds per calendar day. -/
def msPerDay : Int := 86400000

/-- Truncate a millisecond timestamp to its calendar-day index
(`setHours(0,0,0,0)` / `toLocaleDateString`). -/
def dayStamp (t : Int) : Int := t.fdiv msPerDay

/-- Calendar-day index of an event. -/
def dayOf (e : Event) : Int := dayStamp e.receivedAt

/-- The cutoff instant of the time filter (Dashboard.jsx lines 78-93):
`now` minus 1, 7 or 30 days, and the epoch (`new Date(0)`) for the
all-time default branch. -/
def cutoff (tr : String) (now : Int) : Int :=
  if tr = "24h" then now - msPerDay
  else if tr = "7d" then now - 7 * msPerDay
  else if tr = "30d" then now - 30 * msPerDay
  else 0

/-- The repository filter (Dashboard.jsx lines 73-75). -/
def repoFilter (data : List Event) (sel : String) : List Event :=
  if sel = "all" then data
  else data.filter (fun e => e.repository = some sel)

/-- The time filter (Dashboard.jsx lines 95-98): keep events with
`receivedAt >= cutoff`. -/
def timeFiltered (l : List Event) (tr : String) (now : Int) : List Event :=
  l.filter (fun e => cutoff tr now ≤ e.receivedAt)

/-- First value stored under a key in a JavaScript-object model, and 0
when the key is absent (`obj[k] || 0`). -/
def lookupD {α : Type} [DecidableEq α] (m : List (α × Nat)) (k : α) : Nat :=
  match m with
  | [] => 0
  | p :: rest => if p.1 = k then p.2 else lookupD rest k

/-- JavaScript object assignment `obj[k] = v`: update an existing key in
place, append a fresh key at the end (string-keyed insertion order). -/
def setKey {α : Type} [DecidableEq α] (m : List (α × Nat)) (k : α) (v : Nat) :
    List (α × Nat) :=
  match m with
  | [] => [(k, v)]
  | p :: rest => if p.1 = k then (k, v) :: rest else p :: setKey rest k v

/-- `obj[k] = (obj[k] || 0) + 1`. -/
def bump {α : Type} [DecidableEq α] (m : List (α × Nat)) (k : α) :
    List (α × Nat) :=
  setKey m k (lookupD m k + 1)

/-- One counting pass over the filtered list with a categorizer `f`
(Dashboard.jsx lines 100-120, 148-153). -/
def countBy {ε α : Type} [DecidableEq α] (f : ε → α) (l : List ε) :
    List (α × Nat) :=
  l.foldl (fun m x => bump m (f x)) []

/-- Sum of the counts of a mapping. -/
def sumValues {α : Type} (m : List (α × Nat)) : Nat :=
  (m.map (fun p => p.2)).sum

/-- The `if (!minDate || dateObj < minDate)` accumulator of the daily
loop (Dashboard.jsx line 131). -/
def optMin (acc : Option Int) (d : Int) : Option Int :=
  match acc with
  | none => some d
  | some m => if d < m then some d else some m

/-- The `if (!maxDate || dateObj > maxDate)` accumulator of the daily
loop (Dashboard.jsx line 132). -/
def optMax (acc : Option Int) (d : Int) : Option Int :=
  match acc with
  | none => some d
  | some m => if m < d then some d else some m

/-- Earliest truncated event day of a list, `none` when empty. -/
def minDay (l : List Event) : Option Int :=
  l.foldl (fun a e => optMin a (dayOf e)) none

/-- Latest truncated event day of a list, `none` when empty. -/
def maxDay (l : List Event) : Option Int :=
  l.foldl (fun a e => optMax a (dayOf e)) none

/-- The raw per-day tally `dailyActivity` (Dashboard.jsx lines 123-133).
The single JavaScript loop also tracks `minDate` and `maxDate`; those are
`minDay` and `maxDay` here. -/
def dailyTally (l : List Event) : List (Int × Nat) := countBy dayOf l

/-- `filledDailyActivity` (Dashboard.jsx lines 135-146): walk every
calendar day from `minDate` to `max(maxDate, today)` inclusive, emitting
the tallied count or 0. -/
def filledDaily (l : List Event) (today : Int) : List (Int × Nat) :=
  match minDay l, maxDay l with
  | some lo, some hi =>
      (List.range ((max hi today) - lo + 1).toNat).map
        (fun (i : Nat) => (lo + (i : Int), lookupD (dailyTally l) (lo + (i : Int))))
  | _, _ => []

/-- The derived view bundle returned by `processData`
(Dashboard.jsx lines 155-165). -/
structure Bundle where
  eventTypes : List (String × Nat)
  repoActivity : List (String × Nat)
  teamActivity : List (String × Nat)
  userActivity : List (String × Nat)
  dailyActivity : List (Int × Nat)
  totalEvents : Nat
  uniqueRepos : Nat
  uniqueTeams : Nat
  filteredData : List Event

/-- `processData` (Dashboard.jsx lines 71-166): repository filter, then
time filter, then the four counting passes, the filled daily series and
the scalar summaries.  Note that the returned `filteredData` is the
repository-filtered list, before the time filter. -/
def processData (data : List Event) (tr sel : String) (now : Int) : Bundle :=
  let filteredData := repoFilter data sel
  let tfd := timeFiltered filteredData tr now
  { eventTypes := countBy eventTypeOf tfd
    repoActivity := countBy repoNameOf tfd
    teamActivity := countBy teamOf tfd
    userActivity := countBy usernameOf tfd
    dailyActivity := filledDaily tfd (dayStamp now)
    totalEvents := tfd.length
    uniqueRepos := (countBy repoNameOf tfd).length
    uniqueTeams := (countBy teamOf tfd).length
    filteredData := filteredData }

/-- `todaysEvents` (Dashboard.jsx lines 184-188): events of `filteredData`
whose truncated day equals the truncated current day. -/
def todaysEvents (fd : List Event) (now : Int) : List Event :=
  fd.filter (fun e => dayOf e = dayStamp now)

/-- `todaysActivity` (Dashboard.jsx line 189). -/
def todaysActivity (fd : List Event) (now : Int) : Nat :=
  (todaysEvents fd now).length

/-- `new Set(xs)` iteration: skip an element already seen, otherwise keep
it and remember it.  `seen` is the set built so far. -/
def jsSetDedupAux (seen : List String) : List String → List String
  | [] => []
  | x :: xs =>
      if x ∈ seen then jsSetDedupAux seen xs
      else x :: jsSetDedupAux (x :: seen) xs

/-- `[...new Set(xs)]`: each distinct element once, in first-seen order. -/
def jsSetDedup (l : List String) : List String := jsSetDedupAux [] l

/-- `teamsWorkedToday` (Dashboard.jsx line 190): size of the set of team
labels of the today events. -/
def teamsWorkedToday (fd : List Event) (now : Int) : Nat :=
  (jsSetDedup ((todaysEvents fd now).map teamOrUnknown)).length

/-- Stable insertion of an entry into a count-descending list: the entry
goes after every entry with a greater-or-equal count and before the first
entry with a strictly smaller count.  This is where a stable sort with
comparator `(a, b) => b[1] - a[1]` places a later element. -/
def insertByCount (x : String × Nat) : List (String × Nat) → List (String × Nat)
  | [] => [x]
  | y :: ys => if y.2 < x.2 then x :: y :: ys else y :: insertByCount x ys

/-- `.sort((a, b) => b[1] - a[1])` (Dashboard.jsx lines 193-201).
`Array.prototype.sort` is stable, and a stable sort under a fixed total
preorder has a unique output, so the stable insertion sort below is the
same function. -/
def sortByCountDesc (m : List (String × Nat)) : List (String × Nat) :=
  m.foldl (fun acc x => insertByCount x acc) []

/-- `.sort(...).slice(0, n)`. -/
def topN (m : List (String × Nat)) (n : Nat) : List (String × Nat) :=
  (sortByCountDesc m).take n

/-- `topTeams` (Dashboard.jsx lines 193-195). -/
def topTeams (b : Bundle) : List (String × Nat) := topN b.teamActivity 5

/-- `topUsers` (Dashboard.jsx lines 196-198). -/
def topUsers (b : Bundle) : List (String × Nat) := topN b.userActivity 5

/-- `leaderboard` (Dashboard.jsx lines 200-201). -/
def leaderboard (b : Bundle) : List (String × Nat) :=
  sortByCountDesc b.userActivity

/-- `rowsPerPage` (Dashboard.jsx line 37). -/
def rowsPerPage : Nat := 10

/-- `Math.ceil(filteredData.length / rowsPerPage)` (Dashboard.jsx line
204); on naturals the ceiling of `L / 10` is `(L + 9) / 10`. -/
def totalPages (l : List Event) : Nat :=
  (l.length + rowsPerPage - 1) / rowsPerPage

/-- JavaScript `arr.slice(a, b)` for `0 ≤ a`, `0 ≤ b`: both bounds are
clipped to the array length. -/
def jsSlice {α : Type} (l : List α) (a b : Nat) : List α := (l.take b).drop a

/-- `paginatedData` (Dashboard.jsx line 205). -/
def paginate (l : List Event) (p : Nat) : List Event :=
  jsSlice l ((p - 1) * rowsPerPage) (p * rowsPerPage)

/-- `handlePrevPage` (Dashboard.jsx line 206). -/
def handlePrevPage (p : Nat) : Nat := max 1 (p - 1)

/-- `handleNextPage` (Dashboard.jsx line 207); `tp` is the `totalPages`
value in scope at the click. -/
def handleNextPage (tp p : Nat) : Nat := min tp (p + 1)

/-- The mutable UI state of the component (Dashboard.jsx lines 34-36). -/
structure UIState where
  timeRange : String
  selectedRepo : String
  currentPage : Nat
deriving DecidableEq

/-- The user interactions that touch the UI state. -/
inductive UIAction where
  | prev
  | next
  | setRepo (r : String)
  | setRange (tr : String)

/-- One UI transition.  `prev` and `next` run the click handlers with the
`totalPages` of the current repository-filtered list; changing a filter
only replaces the filter value — the component has no effect that
re-clamps `currentPage` afterwards. -/
def uiStep (data : List Event) (s : UIState) : UIAction → UIState
  | .prev => { s with currentPage := handlePrevPage s.currentPage }
  | .next =>
      { s with currentPage := handleNextPage (totalPages (repoFilter data s.selectedRepo)) s.currentPage }
  | .setRepo r => { s with selectedRepo := r }
  | .setRange tr => { s with timeRange := tr }

/-- Run a sequence of UI actions. -/
def runUI (data : List Event) (s : UIState) (acts : List UIAction) : UIState :=
  acts.foldl (uiStep data) s

/-- `webhookData.map(item => item.repository?.name).filter(Boolean)`
(Dashboard.jsx line 210): the repository names of the raw snapshot with
`undefined` and the falsy empty string removed. -/
def repoNames (data : List Event) : List String :=
  (data.map (fun e => e.repository)).filterMap (fun o =>
    match o with
    | some s => if s = "" then none else some s
    | none => none)

/-- `repositories` (Dashboard.jsx line 210): the selector list. -/
def repositories (data : List Event) : List String :=
  jsSetDedup (repoNames data)

/-! ### Lemmas about the association-list counters -/

theorem lookupD_setKey {α : Type} [DecidableEq α] (m : List (α × Nat))
    (k k' : α) (v : Nat) :
    lookupD (setKey m k v) k' = if k' = k then v else lookupD m k' := by
  induction m with
  | nil =>
      simp only [setKey, lookupD]
      by_cases h : k = k' <;> simp [h, eq_comm]
  | cons p rest ih =>
      simp only [setKey]
      by_cases hp : p.1 = k
      · simp only [hp, if_pos rfl, lookupD]
        by_cases h : k = k' <;> simp [h, eq_comm, hp]
      · simp only [if_neg hp, lookupD, ih]
        by_cases h : p.1 = k'
        · have : ¬ k' = k := fun hk => hp (h.trans hk)
          simp [h, this]
        · simp [h]

theorem sumValues_bump {α : Type} [DecidableEq α] (m : List (α × Nat)) (k : α) :
    sumValues (bump m k) = sumValues m + 1 := by
  induction m with
  | nil => simp [bump, setKey, lookupD, sumValues]
  | cons p rest ih =>
      simp only [bump, setKey, lookupD] at *
      by_cases hp : p.1 = k
      · simp [hp, sumValues]
        omega
      · simp only [if_neg hp, sumValues, List.map_cons, List.sum_cons] at *
        omega

theorem lookupD_bump {α : Type} [DecidableEq α] (m : List (α × Nat)) (k k' : α) :
    lookupD (bump m k) k' = lookupD m k' + if k' = k then 1 else 0 := by
  simp only [bump, lookupD_setKey]
  by_cases h : k' = k <;> simp [h]

theorem sumValues_countBy_aux {ε α : Type} [DecidableEq α] (f : ε → α)
    (l : List ε) :
    ∀ m : List (α × Nat),
      sumValues (l.foldl (fun m x => bump m (f x)) m) = sumValues m + l.length := by
  induction l with
  | nil => intro m; simp
  | cons x l ih =>
      intro m
      simp only [List.foldl_cons, List.length_cons, ih, sumValues_bump]
      omega

theorem sumValues_countBy {ε α : Type} [DecidableEq α] (f : ε → α) (l : List ε) :
    sumValues (countBy f l) = l.length := by
  simpa [sumValues] using sumValues_countBy_aux f l []

theorem lookupD_countBy_aux {ε α : Type} [DecidableEq α] (f : ε → α)
    (l : List ε) (k : α) :
    ∀ m : List (α × Nat),
      lookupD (l.foldl (fun m x => bump m (f x)) m) k
        = lookupD m k + l.countP (fun x => f x = k) := by
  induction l with
  | nil => intro m; simp
  | cons x l ih =>
      intro m
      simp only [List.foldl_cons, ih, lookupD_bump, List.countP_cons]
      by_cases h : f x = k
      · simp [h]
        omega
      · have : ¬ k = f x := fun hk => h hk.symm
        simp [h, this]

theorem lookupD_countBy {ε α : Type} [DecidableEq α] (f : ε → α) (l : List ε)
    (k : α) :
    lookupD (countBy f l) k = l.countP (fun x => f x = k) := by
  simpa [lookupD] using lookupD_countBy_aux f l k []

theorem sum_map_add {α : Type} (ks : List α) (g h : α → Nat) :
    (ks.map (fun k => g k + h k)).sum = (ks.map g).sum + (ks.map h).sum := by
  induction ks with
  | nil => simp
  | cons c ks ih => simp [ih]; omega

theorem sum_map_hit_zero {α : Type} [DecidableEq α] (ks : List α) (a : α)
    (ha : a ∉ ks) :
    (ks.map (fun k => if a = k then 1 else 0)).sum = 0 := by
  induction ks with
  | nil => simp
  | cons c ks ih =>
      have hac : ¬ a = c := fun h => ha (by simp [h])
      have : a ∉ ks := fun h => ha (by simp [h])
      simp [hac, ih this]

theorem sum_map_hit_one {α : Type} [DecidableEq α] (ks : List α) (a : α)
    (hmem : a ∈ ks) (hnd : ks.Nodup) :
    (ks.map (fun k => if a = k then 1 else 0)).sum = 1 := by
  induction ks with
  | nil => simp at hmem
  | cons c ks ih =>
      rcases List.nodup_cons.mp hnd with ⟨hc, hnd'⟩
      by_cases hac : a = c
      · subst hac
        simp [sum_map_hit_zero ks a hc]
      · have : a ∈ ks := by
          rcases List.mem_cons.mp hmem with h | h
          · exact absurd h hac
          · exact h
        simp [hac, ih this hnd']

/-- Summing the per-key counts over a duplicate-free key list that covers
every value of `f` on `l` recovers the length of `l`. -/
theorem length_eq_sum_countP {ε α : Type} [DecidableEq α] (l : List ε)
    (f : ε → α) (ks : List α) (hnd : ks.Nodup)
    (hcov : ∀ x ∈ l, f x ∈ ks) :
    (ks.map (fun k => l.countP (fun x => f x = k))).sum = l.length := by
  induction l with
  | nil => simp
  | cons x l ih =>
      have hx : f x ∈ ks := hcov x (by simp)
      have hcov' : ∀ y ∈ l, f y ∈ ks := fun y hy => hcov y (by simp [hy])
      have hpt : ∀ k : α, (x :: l).countP (fun y => f y = k)
          = l.countP (fun y => f y = k) + if f x = k then 1 else 0 := by
        intro k
        simp only [List.countP_cons]
        by_cases h : f x = k <;> simp [h]
      have step : (ks.map (fun k => (x :: l).countP (fun y => f y = k))).sum
          = (ks.map (fun k => l.countP (fun y => f y = k))).sum
            + (ks.map (fun k => if f x = k then 1 else 0)).sum := by
        simp only [hpt]
        exact sum_map_add ks _ _
      rw [step, ih hcov', sum_map_hit_one ks (f x) hx hnd]
      simp

/-! ### Lemmas about the daily min/max fold -/

theorem foldl_optMin_spec (l : List Event) :
    ∀ m : Int, ∃ r, l.foldl (fun a e => optMin a (dayOf e)) (some m) = some r ∧
      r ≤ m ∧ (∀ e ∈ l, r ≤ dayOf e) ∧ (r = m ∨ ∃ e ∈ l, dayOf e = r) := by
  induction l with
  | nil => intro m; exact ⟨m, rfl, le_refl m, by simp, Or.inl rfl⟩
  | cons x l ih =>
      intro m
      by_cases h : dayOf x < m
      · obtain ⟨r, hfold, hrm, hall, hor⟩ := ih (dayOf x)
        refine ⟨r, ?_, ?_, ?_, ?_⟩
        · simpa [optMin, h] using hfold
        · exact le_trans hrm (le_of_lt h)
        · intro e he
          rcases List.mem_cons.mp he with rfl | he'
          · exact hrm
          · exact hall e he'
        · rcases hor with rfl | ⟨e, he, hde⟩
          · exact Or.inr ⟨x, by simp, rfl⟩
          · exact Or.inr ⟨e, by simp [he], hde⟩
      · obtain ⟨r, hfold, hrm, hall, hor⟩ := ih m
        refine ⟨r, ?_, hrm, ?_, ?_⟩
        · simpa [optMin, h] using hfold
        · intro e he
          rcases List.mem_cons.mp he with rfl | he'
          · exact le_trans hrm (not_lt.mp h)
          · exact hall e he'
        · rcases hor with rfl | ⟨e, he, hde⟩
          · exact Or.inl rfl
          · exact Or.inr ⟨e, by simp [he], hde⟩

theorem minDay_spec (l : List Event) (hne : l ≠ []) :
    ∃ r, minDay l = some r ∧ (∀ e ∈ l, r ≤ dayOf e) ∧ ∃ e ∈ l, dayOf e = r := by
  match l, hne with
  | x :: l, _ =>
      obtain ⟨r, hfold, hrm, hall, hor⟩ := foldl_optMin_spec l (dayOf x)
      refine ⟨r, ?_, ?_, ?_⟩
      · simpa [minDay, optMin] using hfold
      · intro e he
        rcases List.mem_cons.mp he with rfl | he'
        · exact hrm
        · exact hall e he'
      · rcases hor with rfl | ⟨e, he, hde⟩
        · exact ⟨x, by simp, rfl⟩
        · exact ⟨e, by simp [he], hde⟩

theorem foldl_optMax_spec (l : List Event) :
    ∀ m : Int, ∃ r, l.foldl (fun a e => optMax a (dayOf e)) (some m) = some r ∧
      m ≤ r ∧ (∀ e ∈ l, dayOf e ≤ r) ∧ (r = m ∨ ∃ e ∈ l, dayOf e = r) := by
  induction l with
  | nil => intro m; exact ⟨m, rfl, le_refl m, by simp, Or.inl rfl⟩
  | cons x l ih =>
      intro m
      by_cases h : m < dayOf x
      · obtain ⟨r, hfold, hrm, hall, hor⟩ := ih (dayOf x)
        refine ⟨r, ?_, ?_, ?_, ?_⟩
        · simpa [optMax, h] using hfold
        · exact le_trans (le_of_lt h) hrm
        · intro e he
          rcases List.mem_cons.mp he with rfl | he'
          · exact hrm
          · exact hall e he'
        · rcases hor with rfl | ⟨e, he, hde⟩
          · exact Or.inr ⟨x, by simp, rfl⟩
          · exact Or.inr ⟨e, by simp [he], hde⟩
      · obtain ⟨r, hfold, hrm, hall, hor⟩ := ih m
        refine ⟨r, ?_, hrm, ?_, ?_⟩
        · simpa [optMax, h] using hfold
        · intro e he
          rcases List.mem_cons.mp he with rfl | he'
          · exact le_trans (not_lt.mp h) hrm
          · exact hall e he'
        · rcases hor with rfl | ⟨e, he, hde⟩
          · exact Or.inl rfl
          · exact Or.inr ⟨e, by simp [he], hde⟩

theorem maxDay_spec (l : List Event) (hne : l ≠ []) :
    ∃ r, maxDay l = some r ∧ (∀ e ∈ l, dayOf e ≤ r) ∧ ∃ e ∈ l, dayOf e = r := by
  match l, hne with
  | x :: l, _ =>
      obtain ⟨r, hfold, hrm, hall, hor⟩ := foldl_optMax_spec l (dayOf x)
      refine ⟨r, ?_, ?_, ?_⟩
      · simpa [maxDay, optMax] using hfold
      · intro e he
        rcases List.mem_cons.mp he with rfl | he'
        · exact hrm
        · exact hall e he'
      · rcases hor with rfl | ⟨e, he, hde⟩
        · exact ⟨x, by simp, rfl⟩
        · exact ⟨e, by simp [he], hde⟩

/-! ### Lemmas about the set-based deduplication -/

theorem mem_jsSetDedupAux (l : List String) :
    ∀ (seen : List String) (a : String),
      a ∈ jsSetDedupAux seen l ↔ a ∈ l ∧ a ∉ seen := by
  induction l with
  | nil => intro seen a; simp [jsSetDedupAux]
  | cons x xs ih =>
      intro seen a
      by_cases hx : x ∈ seen
      · simp only [jsSetDedupAux, if_pos hx, ih]
        constructor
        · rintro ⟨ha, hs⟩
          exact ⟨by simp [ha], hs⟩
        · rintro ⟨ha, hs⟩
          rcases List.mem_cons.mp ha with rfl | ha'
          · exact absurd hx hs
          · exact ⟨ha', hs⟩
      · simp only [jsSetDedupAux, if_neg hx, List.mem_cons, ih]
        constructor
        · rintro (rfl | ⟨ha, hs⟩)
          · exact ⟨Or.inl rfl, hx⟩
          · refine ⟨Or.inr ha, fun hsn => hs (by simp [hsn])⟩
        · rintro ⟨rfl | ha, hs⟩
          · exact Or.inl rfl
          · by_cases hax : a = x
            · exact Or.inl hax
            · exact Or.inr ⟨ha, by simp [hax, hs]⟩

theorem mem_jsSetDedup (l : List String) (a : String) :
    a ∈ jsSetDedup l ↔ a ∈ l := by
  simp [jsSetDedup, mem_jsSetDedupAux]

theorem nodup_jsSetDedupAux (l : List String) :
    ∀ seen : List String, (jsSetDedupAux seen l).Nodup := by
  induction l with
  | nil => intro seen; simp [jsSetDedupAux]
  | cons x xs ih =>
      intro seen
      by_cases hx : x ∈ seen
      · simpa [jsSetDedupAux, hx] using ih seen
      · simp only [jsSetDedupAux, if_neg hx, List.nodup_cons]
        refine ⟨fun hmem => ?_, ih (x :: seen)⟩
        rcases (mem_jsSetDedupAux xs (x :: seen) x).mp hmem with ⟨-, hs⟩
        exact hs (by simp)

theorem nodup_jsSetDedup (l : List String) : (jsSetDedup l).Nodup :=
  nodup_jsSetDedupAux l []

theorem pairwise_indexOf_jsSetDedupAux (l : List String) :
    ∀ seen : List String,
      (jsSetDedupAux seen l).Pairwise (fun a b => l.indexOf a < l.indexOf b) := by
  induction l with
  | nil => intro seen; simp [jsSetDedupAux]
  | cons x xs ih =>
      intro seen
      by_cases hx : x ∈ seen
      · simp only [jsSetDedupAux, if_pos hx]
        refine List.Pairwise.imp_of_mem ?_ (ih seen)
        intro a b ha hb hab
        rcases (mem_jsSetDedupAux xs seen a).mp ha with ⟨hal, has⟩
        rcases (mem_jsSetDedupAux xs seen b).mp hb with ⟨hbl, hbs⟩
        have hax : a ≠ x := fun h => has (h ▸ hx)
        have hbx : b ≠ x := fun h => hbs (h ▸ hx)
        rw [List.indexOf_cons_ne _ (Ne.symm hax), List.indexOf_cons_ne _ (Ne.symm hbx)]
        omega
      · simp only [jsSetDedupAux, if_neg hx, List.pairwise_cons]
        constructor
        · intro b hb
          rcases (mem_jsSetDedupAux xs (x :: seen) b).mp hb with ⟨hbl, hbs⟩
          have hbx : b ≠ x := fun h => hbs (by simp [h])
          rw [List.indexOf_cons_self, List.indexOf_cons_ne _ (Ne.symm hbx)]
          omega
        · refine List.Pairwise.imp_of_mem ?_ (ih (x :: seen))
          intro a b ha hb hab
          rcases (mem_jsSetDedupAux xs (x :: seen) a).mp ha with ⟨hal, has⟩
          rcases (mem_jsSetDedupAux xs (x :: seen) b).mp hb with ⟨hbl, hbs⟩
          have hax : a ≠ x := fun h => has (by simp [h])
          have hbx : b ≠ x := fun h => hbs (by simp [h])
          rw [List.indexOf_cons_ne _ (Ne.symm hax), List.indexOf_cons_ne _ (Ne.symm hbx)]
          omega

theorem pairwise_indexOf_jsSetDedup (l : List String) :
    (jsSetDedup l).Pairwise (fun a b => l.indexOf a < l.indexOf b) :=
  pairwise_indexOf_jsSetDedupAux l []

/-! ### Lemmas about the stable count-descending sort -/

theorem mem_insertByCount (x z : String × Nat) (m : List (String × Nat)) :
    z ∈ insertByCount x m ↔ z = x ∨ z ∈ m := by
  induction m with
  | nil => simp [insertByCount]
  | cons y ys ih =>
      by_cases h : y.2 < x.2
      · simp [insertByCount, h]
      · simp only [insertByCount, if_neg h, List.mem_cons, ih]
        tauto

theorem pairwise_insertByCount (x : String × Nat) (m : List (String × Nat))
    (hm : m.Pairwise (fun a b => b.2 ≤ a.2)) :
    (insertByCount x m).Pairwise (fun a b => b.2 ≤ a.2) := by
  induction m with
  | nil => simp [insertByCount]
  | cons y ys ih =>
      rcases List.pairwise_cons.mp hm with ⟨hy, hys⟩
      by_cases h : y.2 < x.2
      · simp only [insertByCount, if_pos h, List.pairwise_cons]
        refine ⟨?_, hy, hys⟩
        intro z hz
        rcases List.mem_cons.mp hz with rfl | hz'
        · exact le_of_lt h
        · exact le_trans (hy z hz') (le_of_lt h)
      · simp only [insertByCount, if_neg h, List.pairwise_cons]
        refine ⟨?_, ih hys⟩
        intro z hz
        rcases (mem_insertByCount x z ys).mp hz with rfl | hz'
        · exact not_lt.mp h
        · exact hy z hz'

theorem pairwise_sortByCountDesc_aux (m : List (String × Nat)) :
    ∀ acc : List (String × Nat), acc.Pairwise (fun a b => b.2 ≤ a.2) →
      (m.foldl (fun acc x => insertByCount x acc) acc).Pairwise
        (fun a b => b.2 ≤ a.2) := by
  induction m with
  | nil => intro acc hacc; simpa using hacc
  | cons x xs ih =>
      intro acc hacc
      exact ih (insertByCount x acc) (pairwise_insertByCount x acc hacc)

theorem pairwise_sortByCountDesc (m : List (String × Nat)) :
    (sortByCountDesc m).Pairwise (fun a b => b.2 ≤ a.2) :=
  pairwise_sortByCountDesc_aux m [] (by simp)

theorem filter_count_eq_nil (k : Nat) (m : List (String × Nat))
    (hall : ∀ z ∈ m, z.2 < k) :
    m.filter (fun p => p.2 = k) = [] := by
  induction m with
  | nil => simp
  | cons y ys ih =>
      have hy : y.2 < k := hall y (by simp)
      have hne : ¬ (y.2 = k) := by omega
      simp only [List.filter_cons]
      rw [if_neg (by simpa using hne)]
      exact ih (fun z hz => hall z (by simp [hz]))

theorem filter_insertByCount (k : Nat) (x : String × Nat)
    (m : List (String × Nat)) (hm : m.Pairwise (fun a b => b.2 ≤ a.2)) :
    (insertByCount x m).filter (fun p => p.2 = k)
      = if x.2 = k then m.filter (fun p => p.2 = k) ++ [x]
        else m.filter (fun p => p.2 = k) := by
  induction m with
  | nil =>
      simp only [insertByCount, List.filter_nil]
      by_cases h : x.2 = k <;> simp [h]
  | cons y ys ih =>
      rcases List.pairwise_cons.mp hm with ⟨hy, hys⟩
      by_cases h : y.2 < x.2
      · simp only [insertByCount, if_pos h]
        by_cases hx : x.2 = k
        · have hnil : (y :: ys).filter (fun p => p.2 = k) = [] := by
            refine filter_count_eq_nil k (y :: ys) ?_
            intro z hz
            rcases List.mem_cons.mp hz with rfl | hz'
            · omega
            · have := hy z hz'
              omega
          rw [hnil]
          simp [List.filter_cons, hx, hnil]
        · simp [List.filter_cons, hx]
      · simp only [insertByCount, if_neg h, List.filter_cons, ih hys]
        by_cases hyk : y.2 = k <;> by_cases hx : x.2 = k <;>
          simp [hyk, hx]

theorem filter_sortByCountDesc_aux (k : Nat) (m : List (String × Nat)) :
    ∀ acc : List (String × Nat), acc.Pairwise (fun a b => b.2 ≤ a.2) →
      (m.foldl (fun acc x => insertByCount x acc) acc).filter (fun p => p.2 = k)
        = acc.filter (fun p => p.2 = k) ++ m.filter (fun p => p.2 = k) := by
  induction m with
  | nil => intro acc hacc; simp
  | cons x xs ih =>
      intro acc hacc
      simp only [List.foldl_cons]
      rw [ih (insertByCount x acc) (pairwise_insertByCount x acc hacc),
        filter_insertByCount k x acc hacc, List.filter_cons]
      by_cases hx : x.2 = k <;> simp [hx]

/-- Stability of the model sort: the subsequence of entries carrying any
fixed count is unchanged, so tied entries keep the iteration order of the
source mapping. -/
theorem filter_sortByCountDesc (k : Nat) (m : List (String × Nat)) :
    (sortByCountDesc m).filter (fun p => p.2 = k)
      = m.filter (fun p => p.2 = k) := by
  simpa using filter_sortByCountDesc_aux k m [] (by simp)

theorem length_insertByCount (x : String × Nat) (m : List (String × Nat)) :
    (insertByCount x m).length = m.length + 1 := by
  induction m with
  | nil => simp [insertByCount]
  | cons y ys ih =>
      by_cases h : y.2 < x.2 <;> simp [insertByCount, h, ih]

theorem length_sortByCountDesc_aux (m : List (String × Nat)) :
    ∀ acc : List (String × Nat),
      (m.foldl (fun acc x => insertByCount x acc) acc).length
        = acc.length + m.length := by
  induction m with
  | nil => intro acc; simp
  | cons x xs ih =>
      intro acc
      simp only [List.foldl_cons, ih, length_insertByCount, List.length_cons]
      omega

theorem length_sortByCountDesc (m : List (String × Nat)) :
    (sortByCountDesc m).length = m.length := by
  simpa using length_sortByCountDesc_aux m []

/-! ### Claim theorems -/

/-- C2: for every snapshot and filter pair, the sum of the event-type
counts and the sum of the repository counts both equal the number of
events surviving both filters (`totalEvents`). -/
theorem c2_count_conservation (data : List Event) (tr sel : String) (now : Int) :
    sumValues (processData data tr sel now).eventTypes
      = (processData data tr sel now).totalEvents ∧
    sumValues (processData data tr sel now).repoActivity
      = (processData data tr sel now).totalEvents :=
  ⟨sumValues_countBy eventTypeOf _, sumValues_countBy repoNameOf _⟩

/-- C6: the aggregation is a total function, and every absent optional
field resolves to the documented default `"Unknown"`: an absent event
type, an absent repository name (in both the counting passes and the
today-summary/table team derivation), and an actor with no sender, pusher
or pull-request author. -/
theorem c6_missing_fields_default_unknown (e : Event) :
    (e.githubEvent = none → eventTypeOf e = "Unknown") ∧
    (e.repository = none →
      repoNameOf e = "Unknown" ∧ teamOrUnknown e = "Unknown") ∧
    (e.sender = none → e.pusher = none → e.prUser = none →
      usernameOf e = "Unknown") := by
  refine ⟨fun h => ?_, fun h => ⟨?_, ?_⟩, fun h1 h2 h3 => ?_⟩ <;>
    simp [eventTypeOf, repoNameOf, teamOrUnknown, usernameOf, jsOr, *]

/-- The all-fields-absent record used to witness C6. -/
def allMissingEvent : Event :=
  { id := "m", receivedAt := 0, githubEvent := none, repository := none,
    sender := none, pusher := none, prUser := none }

/-- Witness for C6 at a concrete event with every optional field absent. -/
theorem c6_missing_fields_default_unknown_witness :
    allMissingEvent.githubEvent = none ∧ allMissingEvent.repository = none ∧
    eventTypeOf allMissingEvent = "Unknown" ∧
    repoNameOf allMissingEvent = "Unknown" ∧
    teamOrUnknown allMissingEvent = "Unknown" ∧
    usernameOf allMissingEvent = "Unknown" :=
  ⟨rfl, rfl,
    (c6_missing_fields_default_unknown allMissingEvent).1 rfl,
    ((c6_missing_fields_default_unknown allMissingEvent).2.1 rfl).1,
    ((c6_missing_fields_default_unknown allMissingEvent).2.1 rfl).2,
    (c6_missing_fields_default_unknown allMissingEvent).2.2 rfl rfl rfl⟩

/-- C8: the top-5 ranking is the length-`min 5 (size of the mapping)`
front segment of the full ranking, the full ranking is sorted
non-increasing by count, ties keep the iteration order of the mapping
(stability, stated as preservation of the per-count subsequences), and
the top-users list is the front segment of the leaderboard. -/
theorem c8_ranking_correct (m : List (String × Nat)) :
    topN m 5 <+: sortByCountDesc m ∧
    (topN m 5).length = min 5 m.length ∧
    (sortByCountDesc m).Pairwise (fun a b => b.2 ≤ a.2) ∧
    (∀ k, (sortByCountDesc m).filter (fun p => p.2 = k)
      = m.filter (fun p => p.2 = k)) ∧
    (∀ b : Bundle, topUsers b = (leaderboard b).take 5
      ∧ topTeams b = (sortByCountDesc b.teamActivity).take 5) := by
  refine ⟨⟨(sortByCountDesc m).drop 5, List.take_append_drop 5 _⟩, ?_,
    pairwise_sortByCountDesc m, fun k => filter_sortByCountDesc k m,
    fun b => ⟨rfl, rfl⟩⟩
  simp [topN, length_sortByCountDesc]

/-- C9: the today summary is computed from the repository-filtered list
`filteredData`, which does not depend on the time-range filter, so two
runs differing only in `timeRange` agree on both `todaysActivity` and
`teamsWorkedToday`. -/
theorem c9_today_summary_independent_of_time_range
    (data : List Event) (sel tr1 tr2 : String) (now : Int) :
    todaysActivity (processData data tr1 sel now).filteredData now
      = todaysActivity (processData data tr2 sel now).filteredData now ∧
    teamsWorkedToday (processData data tr1 sel now).filteredData now
      = teamsWorkedToday (processData data tr2 sel now).filteredData now :=
  ⟨rfl, rfl⟩

/-- C10: the repository selector is built from the raw snapshot; it lists
each distinct repository name exactly once (no duplicates, and membership
holds exactly for the non-empty names actually present on some event, so
no synthetic entry such as a default label is ever generated), in
first-seen order (positions are ordered by first occurrence in the
scanned name list). -/
theorem c10_repository_selector (data : List Event) :
    (repositories data).Nodup ∧
    (∀ s, s ∈ repositories data ↔
      ((∃ e ∈ data, e.repository = some s) ∧ s ≠ "")) ∧
    (repositories data).Pairwise
      (fun a b => (repoNames data).indexOf a < (repoNames data).indexOf b) := by
  refine ⟨nodup_jsSetDedup _, ?_, pairwise_indexOf_jsSetDedup _⟩
  intro s
  rw [repositories, mem_jsSetDedup]
  simp only [repoNames, List.mem_filterMap, List.mem_map]
  constructor
  · rintro ⟨o, ⟨e, he, rfl⟩, hg⟩
    cases ho : e.repository with
    | none => rw [ho] at hg; simp at hg
    | some t =>
        rw [ho] at hg
        have hg' : (if t = "" then (none : Option String) else some t) = some s := hg
        by_cases ht : t = ""
        · rw [if_pos ht] at hg'
          exact absurd hg' (by simp)
        · rw [if_neg ht] at hg'
          injection hg' with hts
          subst hts
          exact ⟨⟨e, he, ho⟩, ht⟩
  · rintro ⟨⟨e, he, hr⟩, hs⟩
    refine ⟨e.repository, ⟨e, he, rfl⟩, ?_⟩
    rw [hr]
    simp [hs]

/-- Concrete event with repository name `teamA-svc` (Scenario B of the
spec). -/
def eventTeamASvc : Event :=
  { id := "1", receivedAt := 0, githubEvent := some "push",
    repository := some "teamA-svc", sender := some "alice",
    pusher := none, prUser := none }

/-- Concrete event with the repository field absent (Scenario B of the
spec). -/
def eventNoRepo : Event :=
  { id := "2", receivedAt := 0, githubEvent := some "push",
    repository := none, sender := some "bob", pusher := none, prUser := none }

/-- C4 counterexample: `teamA-svc` minus its first 5 characters is
`-svc`, not `svc`, and an absent repository name is first defaulted to
`Unknown` and then sliced, so the team label in `teamActivity` is `wn`,
not `Unknown`. -/
theorem c4_team_label_counterexample :
    teamOf eventTeamASvc = "-svc" ∧ "-svc" ≠ "svc" ∧
    teamOf eventNoRepo = "wn" ∧ "wn" ≠ "Unknown" ∧
    repoNameOf eventNoRepo = "Unknown" ∧
    (processData [eventTeamASvc, eventNoRepo] "all" "all" 0).teamActivity
      = [("-svc", 1), ("wn", 1)] :=
  ⟨by decide, by decide, by decide, by decide, by decide, by decide⟩

/-- C4 amended: the team label of the team-activity pass is the
repository name, defaulted to `Unknown` when absent, with its first 5
characters removed; hence `teamA-svc` yields `-svc`, and an absent
repository name yields repository label `Unknown` and team label `wn`
(while the separate today-summary/table derivation yields `Unknown`
there). -/
theorem c4_team_label_amended (e : Event) :
    teamOf e = jsDrop (repoNameOf e) 5 ∧
    (e.repository = some "teamA-svc" → teamOf e = "-svc") ∧
    (e.repository = none →
      repoNameOf e = "Unknown" ∧ teamOf e = "wn" ∧ teamOrUnknown e = "Unknown") := by
  refine ⟨rfl, fun h => ?_, fun h => ⟨?_, ?_, ?_⟩⟩
  · simp only [teamOf, repoNameOf, h]
    decide
  · simp [repoNameOf, h, jsOr]
  · simp only [teamOf, repoNameOf, h]
    decide
  · simp [teamOrUnknown, h, jsOr]

/-- Witness for the amended C4 at the two concrete events of Scenario B. -/
theorem c4_team_label_amended_witness :
    eventTeamASvc.repository = some "teamA-svc" ∧ teamOf eventTeamASvc = "-svc" ∧
    eventNoRepo.repository = none ∧ teamOf eventNoRepo = "wn" :=
  ⟨rfl, (c4_team_label_amended eventTeamASvc).2.1 rfl, rfl,
    ((c4_team_label_amended eventNoRepo).2.2 rfl).2.1⟩

/-- Concrete event older than every bounded time window at the chosen
`now` (day 100). -/
def staleEvent : Event :=
  { id := "s", receivedAt := 0, githubEvent := some "push",
    repository := some "repoA", sender := some "alice",
    pusher := none, prUser := none }

/-- C3 counterexample: with one event outside the 7-day window the
two-filter survivor count is 0, yet the pagination source still holds
one event and one page — `totalPages` is not `ceil` of the two-filter
count. -/
theorem c3_pagination_source_counterexample :
    (processData [staleEvent] "7d" "all" (86400000 * 100)).totalEvents = 0 ∧
    (processData [staleEvent] "7d" "all" (86400000 * 100)).filteredData.length = 1 ∧
    totalPages (processData [staleEvent] "7d" "all" (86400000 * 100)).filteredData = 1 ∧
    totalPages (processData [staleEvent] "7d" "all" (86400000 * 100)).filteredData
      ≠ ((processData [staleEvent] "7d" "all" (86400000 * 100)).totalEvents
          + rowsPerPage - 1) / rowsPerPage :=
  ⟨by decide, by decide, by decide, by decide⟩

/-- C3 amended: `totalPages` and the page slice are computed from the
repository-filtered list alone (`filteredData`); the time filter is not
applied to the pagination source, so the length used by pagination is
the number of events surviving the repository filter only. -/
theorem c3_pagination_source_amended
    (data : List Event) (tr sel : String) (now : Int) (p : Nat) :
    (processData data tr sel now).filteredData = repoFilter data sel ∧
    totalPages (processData data tr sel now).filteredData
      = ((repoFilter data sel).length + rowsPerPage - 1) / rowsPerPage ∧
    paginate (processData data tr sel now).filteredData p
      = jsSlice (repoFilter data sel) ((p - 1) * rowsPerPage) (p * rowsPerPage) :=
  ⟨rfl, rfl, rfl⟩

theorem length_paginate (l : List Event) (p : Nat) :
    (paginate l p).length
      = min (p * rowsPerPage) l.length - (p - 1) * rowsPerPage := by
  simp [paginate, jsSlice]

/-- Eleven events of repository `A` followed by one event of repository
`B`: two pages under `all`, one page under `B`. -/
def shrinkData : List Event :=
  ((List.range 11).map (fun i =>
    { id := "", receivedAt := (i : Int), githubEvent := some "push",
      repository := some "A", sender := some "alice",
      pusher := none, prUser := none }))
  ++ [{ id := "b", receivedAt := 20, githubEvent := some "push",
        repository := some "B", sender := some "bob",
        pusher := none, prUser := none }]

/-- C5 counterexample: starting from page 1 with 12 events (2 pages),
pressing next and then selecting repository `B` (1 event, 1 page) leaves
`currentPage` at 2, above the new `totalPages` — no re-clamp happens on a
filter change. -/
theorem c5_page_clamp_counterexample :
    (runUI shrinkData
      { timeRange := "7d", selectedRepo := "all", currentPage := 1 }
      [UIAction.next, UIAction.setRepo "B"]).currentPage = 2 ∧
    totalPages (repoFilter shrinkData "B") = 1 ∧
    ¬ ((runUI shrinkData
      { timeRange := "7d", selectedRepo := "all", currentPage := 1 }
      [UIAction.next, UIAction.setRepo "B"]).currentPage
        ≤ totalPages (repoFilter shrinkData "B")) :=
  ⟨by decide, by decide, by decide⟩

/-- C5 amended: the prev handler clamps the page below at 1 and the next
handler clamps it above at the current `totalPages`, but a filter change
leaves the page index unchanged (no re-clamp), so after the filtered
list shrinks `currentPage` can exceed `totalPages`; any page beyond
`totalPages` yields the empty slice, so no out-of-range slice is ever
produced. -/
theorem c5_page_clamp_amended (data : List Event) (s : UIState)
    (r tr : String) (l : List Event) (p : Nat) :
    1 ≤ (uiStep data s UIAction.prev).currentPage ∧
    (uiStep data s UIAction.next).currentPage
      ≤ totalPages (repoFilter data s.selectedRepo) ∧
    (uiStep data s (UIAction.setRepo r)).currentPage = s.currentPage ∧
    (uiStep data s (UIAction.setRange tr)).currentPage = s.currentPage ∧
    (totalPages l < p → paginate l p = []) ∧
    (paginate l p).length ≤ rowsPerPage := by
  refine ⟨le_max_left 1 _, min_le_left _ _, rfl, rfl, fun hp => ?_, ?_⟩
  · have hlen : (paginate l p).length
        = min (p * rowsPerPage) l.length - (p - 1) * rowsPerPage :=
      length_paginate l p
    have hzero : (paginate l p).length = 0 := by
      rw [hlen]
      simp only [totalPages, rowsPerPage] at hp ⊢
      omega
    exact List.eq_nil_of_length_eq_zero hzero
  · rw [length_paginate l p]
    simp only [rowsPerPage]
    omega

/-- Witness for the amended C5: over the empty list `totalPages` is 0,
page 1 is beyond it, and the slice is empty. -/
theorem c5_page_clamp_amended_witness :
    totalPages ([] : List Event) < 1 ∧ paginate [] 1 = [] ∧
    1 ≤ (uiStep []
      { timeRange := "7d", selectedRepo := "all", currentPage := 1 }
      UIAction.prev).currentPage :=
  ⟨by decide,
    (c5_page_clamp_amended []
      { timeRange := "7d", selectedRepo := "all", currentPage := 1 }
      "x" "y" [] 1).2.2.2.2.1 (by decide),
    (c5_page_clamp_amended []
      { timeRange := "7d", selectedRepo := "all", currentPage := 1 }
      "x" "y" [] 1).1⟩

/-- Five events of repository `A`: a single page of pagination. -/
def fiveEvents : List Event :=
  (List.range 5).map (fun i =>
    { id := "", receivedAt := (i : Int), githubEvent := some "push",
      repository := some "A", sender := some "alice",
      pusher := none, prUser := none })

/-- C7 counterexample: at the reachable state `currentPage = 2` over a
5-event filtered list (reachable because no re-clamp happens after a
shrink), the actual slice length is 0 while the claimed formula
`min(pageSize, L - (currentPage-1)*pageSize)` evaluates to -5; the slice
length does not equal the formula, and the formula is negative. -/
theorem c7_slice_length_counterexample :
    totalPages fiveEvents = 1 ∧
    ((paginate fiveEvents 2).length : Int) = 0 ∧
    min (rowsPerPage : Int)
        ((fiveEvents.length : Int) - ((2 : Int) - 1) * (rowsPerPage : Int))
      = -5 ∧
    ((paginate fiveEvents 2).length : Int)
      ≠ min (rowsPerPage : Int)
          ((fiveEvents.length : Int) - ((2 : Int) - 1) * (rowsPerPage : Int)) :=
  ⟨by decide, by decide, by decide, by decide⟩

/-- C7 amended: `totalPages` is the ceiling of `L / 10` (0 when `L = 0`),
and for a page index within `[1, max 1 totalPages]` the slice length
equals `min(pageSize, L - (currentPage-1)*pageSize)`, which is then
nonnegative; beyond `totalPages` the slice is empty (length 0, never
negative) while the formula would be negative. -/
theorem c7_pagination_bounds_amended (l : List Event) (p : Nat)
    (h1 : 1 ≤ p) (h2 : p ≤ max 1 (totalPages l)) :
    (l.length = 0 → totalPages l = 0) ∧
    (0 < l.length → (totalPages l - 1) * rowsPerPage < l.length ∧
      l.length ≤ totalPages l * rowsPerPage) ∧
    ((paginate l p).length : Int)
      = min (rowsPerPage : Int)
          ((l.length : Int) - ((p : Int) - 1) * (rowsPerPage : Int)) ∧
    0 ≤ min (rowsPerPage : Int)
          ((l.length : Int) - ((p : Int) - 1) * (rowsPerPage : Int)) := by
  have hlen : (paginate l p).length
      = min (p * rowsPerPage) l.length - (p - 1) * rowsPerPage :=
    length_paginate l p
  simp only [totalPages, rowsPerPage] at *
  refine ⟨fun h0 => by omega, fun h0 => by omega, ?_, ?_⟩
  · rw [hlen]
    push_cast
    omega
  · omega

/-- Witness for the amended C7 at a single-event list and page 1. -/
theorem c7_pagination_bounds_amended_witness :
    1 ≤ 1 ∧ 1 ≤ max 1 (totalPages [staleEvent]) ∧
    ((paginate [staleEvent] 1).length : Int)
      = min (rowsPerPage : Int)
          ((([staleEvent] : List Event).length : Int)
            - ((1 : Int) - 1) * (rowsPerPage : Int)) :=
  ⟨le_refl 1, by decide,
    (c7_pagination_bounds_amended [staleEvent] 1 (le_refl 1) (by decide)).2.2.1⟩

/-- Full specification of the zero-filled daily series of a non-empty
event list: the endpoints are the extremal event days, the keys are the
contiguous ascending day range up to `max(maxDay, today)`, every value is
the per-day event count, and the values sum to the list length. -/
theorem filledDaily_spec (l : List Event) (t : Int) (hne : l ≠ []) :
    ∃ lo hi, minDay l = some lo ∧ maxDay l = some hi ∧
      (∀ e ∈ l, lo ≤ dayOf e ∧ dayOf e ≤ hi) ∧
      (∃ e ∈ l, dayOf e = lo) ∧ (∃ e ∈ l, dayOf e = hi) ∧
      (filledDaily l t).map Prod.fst
        = (List.range ((max hi t) - lo + 1).toNat).map (fun (i : Nat) => lo + (i : Int)) ∧
      (∀ q ∈ filledDaily l t, q.2 = l.countP (fun e => dayOf e = q.1)) ∧
      ((filledDaily l t).map Prod.snd).sum = l.length := by
  obtain ⟨lo, hlo, hloAll, hloEx⟩ := minDay_spec l hne
  obtain ⟨hi, hhi, hhiAll, hhiEx⟩ := maxDay_spec l hne
  have hfd : filledDaily l t
      = (List.range ((max hi t) - lo + 1).toNat).map
          (fun (i : Nat) => (lo + (i : Int), lookupD (dailyTally l) (lo + (i : Int)))) := by
    rw [filledDaily, hlo, hhi]
  refine ⟨lo, hi, hlo, hhi, fun e he => ⟨hloAll e he, hhiAll e he⟩,
    hloEx, hhiEx, ?_, ?_, ?_⟩
  · rw [hfd, List.map_map]
    rfl
  · intro q hq
    rw [hfd] at hq
    rcases List.mem_map.mp hq with ⟨i, hi_mem, rfl⟩
    simp only [dailyTally, lookupD_countBy]
  · rw [hfd, List.map_map]
    have hks : ((List.range ((max hi t) - lo + 1).toNat).map
        (fun (i : Nat) => lo + (i : Int))).Nodup := by
      refine List.Nodup.map ?_ (List.nodup_range _)
      intro i j hij
      dsimp only at hij
      omega
    have hcov : ∀ e ∈ l, dayOf e ∈
        (List.range ((max hi t) - lo + 1).toNat).map (fun (i : Nat) => lo + (i : Int)) := by
      intro e he
      have h1 := hloAll e he
      have h2 := hhiAll e he
      have hmax : hi ≤ max hi t := le_max_left hi t
      refine List.mem_map.mpr ⟨(dayOf e - lo).toNat, List.mem_range.mpr ?_, ?_⟩
      · omega
      · omega
    have hsum := length_eq_sum_countP l dayOf
        ((List.range ((max hi t) - lo + 1).toNat).map (fun (i : Nat) => lo + (i : Int)))
        hks hcov
    rw [List.map_map] at hsum
    have hfun : (Prod.snd ∘ fun i : Nat =>
          (lo + (i : Int), lookupD (dailyTally l) (lo + (i : Int))))
        = ((fun k => l.countP (fun e => dayOf e = k)) ∘
            (fun i : Nat => lo + (i : Int))) := by
      funext i
      simp [Function.comp, dailyTally, lookupD_countBy]
    rw [hfun]
    exact hsum

/-- C1: the daily series is empty exactly when the two-filter survivor
set is empty; otherwise its keys are the contiguous ascending calendar
days from the earliest event day to `max(latest event day, today)`
inclusive, each value is the number of filtered events of that day (0
when none), and the values sum to the number of filtered events. -/
theorem c1_daily_series_complete (data : List Event) (tr sel : String)
    (now : Int) (F : List Event)
    (hF : F = timeFiltered (repoFilter data sel) tr now) :
    (F = [] → (processData data tr sel now).dailyActivity = []) ∧
    (F ≠ [] → ∃ lo hi, minDay F = some lo ∧ maxDay F = some hi ∧
      (∀ e ∈ F, lo ≤ dayOf e ∧ dayOf e ≤ hi) ∧
      (∃ e ∈ F, dayOf e = lo) ∧ (∃ e ∈ F, dayOf e = hi) ∧
      (processData data tr sel now).dailyActivity.map Prod.fst
        = (List.range ((max hi (dayStamp now)) - lo + 1).toNat).map
            (fun (i : Nat) => lo + (i : Int)) ∧
      (∀ q ∈ (processData data tr sel now).dailyActivity,
        q.2 = F.countP (fun e => dayOf e = q.1)) ∧
      ((processData data tr sel now).dailyActivity.map Prod.snd).sum
        = F.length) := by
  have hda : (processData data tr sel now).dailyActivity
      = filledDaily (timeFiltered (repoFilter data sel) tr now)
          (dayStamp now) := rfl
  subst hF
  constructor
  · intro h
    rw [hda, h]
    rfl
  · intro hne
    rw [hda]
    exact filledDaily_spec _ (dayStamp now) hne

/-- Witness for C1 at a concrete one-event snapshot under the all-time
filter. -/
theorem c1_daily_series_complete_witness :
    ([eventTeamASvc] : List Event)
        = timeFiltered (repoFilter [eventTeamASvc] "all") "all" 0 ∧
    ([eventTeamASvc] : List Event) ≠ [] ∧
    (∃ lo hi, minDay [eventTeamASvc] = some lo ∧
      maxDay [eventTeamASvc] = some hi ∧
      (∀ e ∈ ([eventTeamASvc] : List Event), lo ≤ dayOf e ∧ dayOf e ≤ hi) ∧
      (∃ e ∈ ([eventTeamASvc] : List Event), dayOf e = lo) ∧
      (∃ e ∈ ([eventTeamASvc] : List Event), dayOf e = hi) ∧
      (processData [eventTeamASvc] "all" "all" 0).dailyActivity.map Prod.fst
        = (List.range ((max hi (dayStamp 0)) - lo + 1).toNat).map
            (fun (i : Nat) => lo + (i : Int)) ∧
      (∀ q ∈ (processData [eventTeamASvc] "all" "all" 0).dailyActivity,
        q.2 = ([eventTeamASvc] : List Event).countP (fun e => dayOf e = q.1)) ∧
      ((processData [eventTeamASvc] "all" "all" 0).dailyActivity.map
          Prod.snd).sum
        = ([eventTeamASvc] : List Event).length) :=
  ⟨by decide, by decide,
    (c1_daily_series_complete [eventTeamASvc] "all" "all" 0 [eventTeamASvc]
      (by decide)).2 (by decide)⟩
